import Mathlib

/-!
# Verification of the reed-solomon-rs encoder

Shallow embedding of the repository's three source files:
`src/gf/mod.rs` (GF(256) table arithmetic), `src/gf/poly.rs` (the bounded
polynomial container) and `src/encoder.rs` (batch and streaming
Reed-Solomon encoders).  Bytes are modelled as `Nat` (with `% 256` /
`% 255` where the source wraps), `heapless::Vec` and slices as `List Nat`,
and fallible calls as `Option`.
-/

namespace RS

namespace gf

/-- The 512-entry double-length exponential table from `src/gf/mod.rs`
(`pub static EXP`), transcribed entry by entry. -/
def EXP : List Nat :=
[
  1, 2, 4, 8, 16, 32, 64, 128, 29, 58, 116, 232, 205, 135, 19, 38,
  76, 152, 45, 90, 180, 117, 234, 201, 143, 3, 6, 12, 24, 48, 96, 192,
  157, 39, 78, 156, 37, 74, 148, 53, 106, 212, 181, 119, 238, 193, 159, 35,
  70, 140, 5, 10, 20, 40, 80, 160, 93, 186, 105, 210, 185, 111, 222, 161,
  95, 190, 97, 194, 153, 47, 94, 188, 101, 202, 137, 15, 30, 60, 120, 240,
  253, 231, 211, 187, 107, 214, 177, 127, 254, 225, 223, 163, 91, 182, 113, 226,
  217, 175, 67, 134, 17, 34, 68, 136, 13, 26, 52, 104, 208, 189, 103, 206,
  129, 31, 62, 124, 248, 237, 199, 147, 59, 118, 236, 197, 151, 51, 102, 204,
  133, 23, 46, 92, 184, 109, 218, 169, 79, 158, 33, 66, 132, 21, 42, 84,
  168, 77, 154, 41, 82, 164, 85, 170, 73, 146, 57, 114, 228, 213, 183, 115,
  230, 209, 191, 99, 198, 145, 63, 126, 252, 229, 215, 179, 123, 246, 241, 255,
  227, 219, 171, 75, 150, 49, 98, 196, 149, 55, 110, 220, 165, 87, 174, 65,
  130, 25, 50, 100, 200, 141, 7, 14, 28, 56, 112, 224, 221, 167, 83, 166,
  81, 162, 89, 178, 121, 242, 249, 239, 195, 155, 43, 86, 172, 69, 138, 9,
  18, 36, 72, 144, 61, 122, 244, 245, 247, 243, 251, 235, 203, 139, 11, 22,
  44, 88, 176, 125, 250, 233, 207, 131, 27, 54, 108, 216, 173, 71, 142, 1,
  2, 4, 8, 16, 32, 64, 128, 29, 58, 116, 232, 205, 135, 19, 38, 76,
  152, 45, 90, 180, 117, 234, 201, 143, 3, 6, 12, 24, 48, 96, 192, 157,
  39, 78, 156, 37, 74, 148, 53, 106, 212, 181, 119, 238, 193, 159, 35, 70,
  140, 5, 10, 20, 40, 80, 160, 93, 186, 105, 210, 185, 111, 222, 161, 95,
  190, 97, 194, 153, 47, 94, 188, 101, 202, 137, 15, 30, 60, 120, 240, 253,
  231, 211, 187, 107, 214, 177, 127, 254, 225, 223, 163, 91, 182, 113, 226, 217,
  175, 67, 134, 17, 34, 68, 136, 13, 26, 52, 104, 208, 189, 103, 206, 129,
  31, 62, 124, 248, 237, 199, 147, 59, 118, 236, 197, 151, 51, 102, 204, 133,
  23, 46, 92, 184, 109, 218, 169, 79, 158, 33, 66, 132, 21, 42, 84, 168,
  77, 154, 41, 82, 164, 85, 170, 73, 146, 57, 114, 228, 213, 183, 115, 230,
  209, 191, 99, 198, 145, 63, 126, 252, 229, 215, 179, 123, 246, 241, 255, 227,
  219, 171, 75, 150, 49, 98, 196, 149, 55, 110, 220, 165, 87, 174, 65, 130,
  25, 50, 100, 200, 141, 7, 14, 28, 56, 112, 224, 221, 167, 83, 166, 81,
  162, 89, 178, 121, 242, 249, 239, 195, 155, 43, 86, 172, 69, 138, 9, 18,
  36, 72, 144, 61, 122, 244, 245, 247, 243, 251, 235, 203, 139, 11, 22, 44,
  88, 176, 125, 250, 233, 207, 131, 27, 54, 108, 216, 173, 71, 142, 1, 2]

/-- The 256-entry logarithm table from `src/gf/mod.rs` (`pub const LOG`);
entry 0 is the unused sentinel. -/
def LOG : List Nat :=
[
  0, 0, 1, 25, 2, 50, 26, 198, 3, 223, 51, 238, 27, 104, 199, 75,
  4, 100, 224, 14, 52, 141, 239, 129, 28, 193, 105, 248, 200, 8, 76, 113,
  5, 138, 101, 47, 225, 36, 15, 33, 53, 147, 142, 218, 240, 18, 130, 69,
  29, 181, 194, 125, 106, 39, 249, 185, 201, 154, 9, 120, 77, 228, 114, 166,
  6, 191, 139, 98, 102, 221, 48, 253, 226, 152, 37, 179, 16, 145, 34, 136,
  54, 208, 148, 206, 143, 150, 219, 189, 241, 210, 19, 92, 131, 56, 70, 64,
  30, 66, 182, 163, 195, 72, 126, 110, 107, 58, 40, 84, 250, 133, 186, 61,
  202, 94, 155, 159, 10, 21, 121, 43, 78, 212, 229, 172, 115, 243, 167, 87,
  7, 112, 192, 247, 140, 128, 99, 13, 103, 74, 222, 237, 49, 197, 254, 24,
  227, 165, 153, 119, 38, 184, 180, 124, 17, 68, 146, 217, 35, 32, 137, 46,
  55, 63, 209, 91, 149, 188, 207, 205, 144, 135, 151, 178, 220, 252, 190, 97,
  242, 86, 211, 171, 20, 42, 93, 158, 132, 60, 57, 83, 71, 109, 65, 162,
  31, 45, 67, 216, 183, 123, 164, 118, 196, 23, 73, 236, 127, 12, 111, 246,
  108, 161, 59, 82, 41, 157, 85, 170, 251, 96, 134, 177, 187, 204, 62, 90,
  203, 89, 95, 176, 156, 169, 160, 81, 11, 245, 22, 235, 122, 117, 44, 215,
  79, 174, 213, 233, 230, 231, 173, 232, 116, 214, 244, 234, 168, 80, 88, 175]

/-- `gf::add`: field addition is xor. -/
def add (x y : Nat) : Nat := x ^^^ y

/-- `gf::sub`: field subtraction is xor. -/
def sub (x y : Nat) : Nat := x ^^^ y

/-- `gf::mul`: 0 if either operand is 0, otherwise `EXP[LOG[x] + LOG[y]]`. -/
def mul (x y : Nat) : Nat :=
if x = 0 ∨ y = 0 then 0
else EXP.getD (LOG.getD x 0 + LOG.getD y 0) 0

/-- `gf::div`: 0 if the dividend is 0, otherwise
`EXP[(LOG[x] + 255 - LOG[y]) % 255]`.  The source carries
`debug_assert!(y != 0)`; the arithmetic itself never underflows because
`LOG[y] ≤ 255`. -/
def div (x y : Nat) : Nat :=
if x = 0 then 0
else EXP.getD ((LOG.getD x 0 + 255 - LOG.getD y 0) % 255) 0

/-- `gf::pow`: `i = LOG[x] * power % 255` in `i32` arithmetic (Rust `%` is
truncating, mirrored by `Int.tmod`), bumped by 255 when negative, then an
`EXP` lookup.  Note: no special case for `x = 0`. -/
def pow (x : Nat) (power : Int) : Nat :=
EXP.getD
  (let i : Int := Int.tmod ((LOG.getD x 0 : Int) * power) 255
   if i < 0 then (i + 255).toNat else i.toNat) 0

/-- `gf::inverse`: `EXP[255 - LOG[x]]`.  Note: no special case for `x = 0`. -/
def inverse (x : Nat) : Nat :=
EXP.getD (255 - LOG.getD x 0) 0

end gf


/-- Indexed map used to express the in-place `for`-loop updates of the
source: `mapIdxFrom f i [x0, x1, ...] = [f i x0, f (i+1) x1, ...]`. -/
def mapIdxFrom (f : Nat → Nat → Nat) : Nat → List Nat → List Nat
| _, [] => []
| i, x :: xs => f i x :: mapIdxFrom f (i + 1) xs

/-- The bounded polynomial container of `src/gf/poly.rs`: a backing array
(whose length plays the role of the capacity `N`), a logical length and the
dirty flag. -/
@[ext]
structure Polynom where
  array : List Nat
  length : Nat
  dirty : Bool

/-- `Polynom::set_length` from `src/gf/poly.rs`: sets the logical length;
if the container is dirty and the length grew, zero-fills the newly exposed
range `[old_len, new_len)`; if the length shrank, marks the container
dirty. -/
def Polynom.set_length (p : Polynom) (new_len : Nat) : Polynom :=
let old_len := p.length
if p.dirty = true ∧ old_len < new_len then
  { p with length := new_len,
           array := mapIdxFrom (fun i x => if old_len ≤ i ∧ i < new_len then 0 else x) 0 p.array }
else if new_len < old_len then
  { p with length := new_len, dirty := true }
else
  { p with length := new_len }

/-- Modelled from the spec: `Polynom::mul` is defined in
`src/gf/poly_math.rs`, which is not among the provided sources.  Spec §4.2:
"`mul(other)`: convolution over GF(256): result length =
`len(self) + len(other) - 1`; result[k] = XOR over all `i+j=k` of
`mul(self[i], other[j])`."  Out-of-range coefficients contribute
`mul(0, _) = 0`, which the XOR ignores. -/
def polyMul (a b : List Nat) : List Nat :=
(List.range (a.length + b.length - 1)).map (fun k =>
  (List.range (k + 1)).foldl (fun acc i => acc ^^^ gf.mul (a.getD i 0) (b.getD (k - i) 0)) 0)

/-- `generator_poly` from `src/encoder.rs`: starting from `[1]`, repeatedly
multiply by the 2-term polynomial `[1, pow(2, i)]` for `i in 0..ecclen`. -/
def generator_poly (ecclen : Nat) : List Nat :=
(List.range ecclen).foldl (fun gen (i : Nat) => polyMul gen [1, gf.pow 2 (i : Int)]) [1]

/-- `ENCODE_GEN_2_ECC_BYTES` from `src/encoder.rs`. -/
def ENCODE_GEN_2_ECC_BYTES : List Nat := [1, 3, 2]

/-- `ENCODE_GEN_4_ECC_BYTES` from `src/encoder.rs`. -/
def ENCODE_GEN_4_ECC_BYTES : List Nat := [1, 15, 54, 120, 64]

/-- `ENCODE_GEN_8_ECC_BYTES` from `src/encoder.rs`. -/
def ENCODE_GEN_8_ECC_BYTES : List Nat := [1, 255, 11, 81, 54, 239, 173, 200, 24]

/-- `ENCODE_GEN_16_ECC_BYTES` from `src/encoder.rs`. -/
def ENCODE_GEN_16_ECC_BYTES : List Nat :=
[1, 59, 13, 104, 189, 68, 209, 30, 8, 163, 65, 41, 229, 98, 50, 36, 59]

/-- Encoder state from `src/encoder.rs`: generator, cached generator
logarithms, the rotating scratch buffer (`heapless::Vec` of capacity
`generator.length`, modelled as a list), and the `u8` byte counter. -/
@[ext]
structure Encoder where
  generator : List Nat
  lgenerator : List Nat
  scratch_space : List Nat
  bytes_processed : Nat

/-- `Encoder::make_lgenerator`: entrywise `LOG` lookup of the generator. -/
def make_lgenerator (generator : List Nat) : List Nat :=
generator.map (fun g => gf.LOG.getD g 0)

/-- `Encoder::new_with_precomputed_generator`. -/
def new_with_precomputed_generator (generator : List Nat) : Encoder :=
{ generator := generator,
  lgenerator := make_lgenerator generator,
  scratch_space := [],
  bytes_processed := 0 }

/-- `Encoder::new`: builds the generator polynomial, then constructs. -/
def Encoder.new (ecc_len : Nat) : Encoder :=
new_with_precomputed_generator (generator_poly ecc_len)

/-- Rotation by one used by the encoder (`scratch_space.rotate_left(1)`). -/
def rotl1 (l : List Nat) : List Nat := l.drop 1 ++ l.take 1

/-- `Encoder::run_encoding_round`: if the leading scratch byte is non-zero,
xor `EXP[LOG[scratch[0]] + lgenerator[j]]` into `scratch[j]` for
`j in 1..generator.len()`. -/
def Encoder.run_encoding_round (e : Encoder) : Encoder :=
let coef := e.scratch_space.getD 0 0
if coef = 0 then e
else
  let lcoef := gf.LOG.getD coef 0
  { e with scratch_space := mapIdxFrom (fun j x =>
      if 1 ≤ j ∧ j < e.generator.length
      then x ^^^ gf.EXP.getD (lcoef + e.lgenerator.getD j 0) 0
      else x) 0 e.scratch_space }

/-- `Encoder::reset`: clear the scratch buffer and the byte counter. -/
def Encoder.reset (e : Encoder) : Encoder :=
{ e with scratch_space := [], bytes_processed := 0 }

/-- Loop body of `Encoder::finalize`: one encoding round, rotate left by
one, zero the last scratch position. -/
def Encoder.finalize_round (e : Encoder) : Encoder :=
let e1 := e.run_encoding_round
{ e1 with scratch_space := (rotl1 e1.scratch_space).set (e1.generator.length - 1) 0 }

/-- `Encoder::finalize`: errors (`none`) when the scratch buffer is empty;
otherwise zero-pads a short scratch buffer to generator length, runs the
recorded number of rounds, returns the first `generator.len() - 1` scratch
bytes and resets the state. -/
def Encoder.finalize (e : Encoder) : Encoder × Option (List Nat) :=
if e.scratch_space.length = 0 then (e, none)
else
  let rounds := if e.scratch_space.length < e.generator.length
                then e.scratch_space.length else e.generator.length
  let e1 := if e.scratch_space.length < e.generator.length
            then { e with scratch_space :=
                    e.scratch_space ++
                      List.replicate (e.generator.length - e.scratch_space.length) 0 }
            else e
  let e2 := Encoder.finalize_round^[rounds] e1
  let out := e2.scratch_space.take (e.generator.length - 1)
  (e2.reset, some out)

/-- `Encoder::encode_single`: while the scratch buffer is filling, push the
byte and echo it; afterwards run one round, rotate the window, append the
byte, and when the `u8` counter reaches `(256 - generator.len()) as u8`
finalize implicitly, returning the pass-through byte followed by the ECC
(the source unwraps the `Result` uncheckedly; the impossible error branch
is modelled by returning just the pass-through byte). -/
def Encoder.encode_single (e : Encoder) (data : Nat) : Encoder × List Nat :=
if e.scratch_space.length < e.generator.length then
  ({ e with scratch_space := e.scratch_space ++ [data],
            bytes_processed := (e.bytes_processed + 1) % 256 }, [data])
else
  let e1 := e.run_encoding_round
  let e2 := { e1 with
    scratch_space := (rotl1 e1.scratch_space).set (e1.generator.length - 1) data,
    bytes_processed := (e1.bytes_processed + 1) % 256 }
  if e2.bytes_processed = (256 - e2.generator.length) % 256 then
    match e2.finalize with
    | (e3, some ecc) => (e3, data :: ecc)
    | (e3, none) => (e3, [data])
  else (e2, [data])

/-- Byte-by-byte loop of `Encoder::encode`: feed every byte through
`encode_single`, keeping the last returned output (the source reassigns
`ecc` on every iteration). -/
def Encoder.feed (e : Encoder) (data : List Nat) : Encoder × List Nat :=
data.foldl (fun p b => p.1.encode_single b) (e, [])

/-- `Encoder::encode`: feed all bytes, then finalize; on a finalize error
the last `encode_single` output (initially empty) is returned instead. -/
def Encoder.encode (e : Encoder) (data : List Nat) : Encoder × List Nat :=
let p := e.feed data
match p.1.finalize with
| (e2, some ecc) => (e2, ecc)
| (e2, none) => (e2, p.2)

/-- Iterated `encode_single` with byte 0, used to drive the encoder to its
implicit-finalize boundary. -/
def Encoder.feedZeros (e : Encoder) (k : Nat) : Encoder :=
(fun x => (x.encode_single 0).1)^[k] e

/-- Synthetic-division step on a coefficient list, head first: processing
the leading coefficient `c` xors `EXP[LOG[c] + lgen[j]]` into the `j`-th
following coefficient for `j in 1..lgen.length`, then drops the head.
Both the batch algorithm of spec §4.4 and the streaming window rewrite to
iterates of this step. -/
def stepHead (lgen : List Nat) : List Nat → List Nat
| [] => []
| c :: t =>
  if c = 0 then t
  else mapIdxFrom (fun j x =>
    if j + 1 < lgen.length
    then x ^^^ gf.EXP.getD (gf.LOG.getD c 0 + lgen.getD (j + 1) 0) 0
    else x) 0 t

/-- Row `i` of the batch algorithm as written in spec §4.4: "if the scratch
byte at `i` is non-zero, compute its discrete log, then for `j` in
`1..len(generator)`, XOR into scratch position `i+j` the product
`exp[log(scratch[i]) + log(generator[j])]`". -/
def spec_round (generator scratch : List Nat) (i : Nat) : List Nat :=
let piv := scratch.getD i 0
if piv = 0 then scratch
else mapIdxFrom (fun k x =>
  if i + 1 ≤ k ∧ k ≤ i + (generator.length - 1)
  then x ^^^ gf.EXP.getD (gf.LOG.getD piv 0 + gf.LOG.getD (generator.getD (k - i) 0) 0) 0
  else x) 0 scratch

/-- Scratch buffer of the batch algorithm of spec §4.4 after all rows: the
message copied into a buffer of size `len(data) + ecc_len` (ECC region
zero-padded), with one division row per data position. -/
def spec_batch_scratch (generator data : List Nat) : List Nat :=
(List.range data.length).foldl (spec_round generator)
  (data ++ List.replicate (generator.length - 1) 0)

/-- ECC bytes of the batch algorithm of spec §4.4: "The final `ecc_len`
bytes of scratch are the remainder — the ECC output." -/
def spec_batch_encode (generator data : List Nat) : List Nat :=
(spec_batch_scratch generator data).drop data.length

/-- Well-formedness invariant of an encoder state: the scratch buffer never
exceeds its capacity (the generator length), the cached logarithms match
the generator, and all stored values are bytes. -/
def WF (e : Encoder) : Prop :=
e.scratch_space.length ≤ e.generator.length ∧
e.lgenerator = make_lgenerator e.generator ∧
(∀ x ∈ e.scratch_space, x < 256) ∧
(∀ x ∈ e.generator, x < 256) ∧
1 ≤ e.generator.length
set_option maxRecDepth 1000000


/-- The double-length exponential table repeats with period 255. -/
theorem exp_getD_mod : ∀ i < 512, gf.EXP.getD i 0 = gf.EXP.getD (i % 255) 0 := by decide

/-- Logarithm of an exponential-table entry recovers the exponent. -/
theorem log_exp_getD : ∀ j < 255, gf.LOG.getD (gf.EXP.getD j 0) 0 = j := by decide

/-- Exponential of the logarithm of a non-zero byte recovers the byte. -/
theorem exp_log_getD : ∀ x < 256, 0 < x → gf.EXP.getD (gf.LOG.getD x 0) 0 = x := by decide

/-- Exponential-table entries below index 255 are non-zero. -/
theorem exp_getD_ne_zero : ∀ j < 255, gf.EXP.getD j 0 ≠ 0 := by decide

/-- Logarithms of bytes are below 255. -/
theorem log_getD_lt_255 : ∀ x < 256, gf.LOG.getD x 0 < 255 := by decide

/-- Every exponential-table entry is a byte. -/
theorem exp_mem_lt : ∀ x ∈ gf.EXP, x < 256 := by decide

/-- Every logarithm-table entry is a byte. -/
theorem log_mem_lt : ∀ x ∈ gf.LOG, x < 256 := by decide

/-- Lookup with default 0 in a list of bytes yields a byte. -/
theorem getD_lt_256 (l : List Nat) (h : ∀ x ∈ l, x < 256) (i : Nat) : l.getD i 0 < 256 := by
rw [List.getD_eq_getElem?_getD]
cases hl : l[i]? with
| none => simp
| some v =>
  simp only [Option.getD_some]
  exact h v (List.mem_iff_getElem?.2 ⟨i, hl⟩)

/-- Any `LOG` lookup is a byte (out-of-range lookups default to 0). -/
theorem log_getD_lt_256 (c : Nat) : gf.LOG.getD c 0 < 256 := getD_lt_256 _ log_mem_lt c

/-- Any `EXP` lookup is a byte (out-of-range lookups default to 0). -/
theorem exp_getD_lt_256 (i : Nat) : gf.EXP.getD i 0 < 256 := getD_lt_256 _ exp_mem_lt i

/-- C7: for every field element `a` and every non-zero field element `b`,
`mul(div(a, b), b) = a`. -/
theorem c7_mul_div_cancel (a b : Nat) (ha : a < 256) (hb : b < 256) (hb0 : b ≠ 0) :
    gf.mul (gf.div a b) b = a := by
by_cases ha0 : a = 0
· subst ha0; simp [gf.div, gf.mul]
· have hLa := log_getD_lt_255 a ha
  have hLb := log_getD_lt_255 b hb
  have hdiv : gf.div a b
      = gf.EXP.getD ((gf.LOG.getD a 0 + 255 - gf.LOG.getD b 0) % 255) 0 := by
    simp only [gf.div, if_neg ha0]
  have hj : (gf.LOG.getD a 0 + 255 - gf.LOG.getD b 0) % 255 < 255 :=
    Nat.mod_lt _ (by omega)
  have hdne : gf.div a b ≠ 0 := by rw [hdiv]; exact exp_getD_ne_zero _ hj
  have hmul : gf.mul (gf.div a b) b
      = gf.EXP.getD (gf.LOG.getD (gf.div a b) 0 + gf.LOG.getD b 0) 0 := by
    simp only [gf.mul,
      if_neg (show ¬(gf.div a b = 0 ∨ b = 0) by push_neg; exact ⟨hdne, hb0⟩)]
  rw [hmul, hdiv, log_exp_getD _ hj, exp_getD_mod _ (by omega)]
  have harith : ((gf.LOG.getD a 0 + 255 - gf.LOG.getD b 0) % 255 + gf.LOG.getD b 0) % 255
      = gf.LOG.getD a 0 := by
    rw [Nat.mod_add_mod]
    have h2 : gf.LOG.getD a 0 + 255 - gf.LOG.getD b 0 + gf.LOG.getD b 0
        = gf.LOG.getD a 0 + 255 := by omega
    rw [h2, Nat.add_mod_right, Nat.mod_eq_of_lt hLa]
  rw [harith]
  exact exp_log_getD a ha (Nat.pos_of_ne_zero ha0)

/-- Witness for C7 at `a = 5`, `b = 7`. -/
theorem c7_mul_div_cancel_witness :
    (5 : Nat) < 256 ∧ (7 : Nat) < 256 ∧ (7 : Nat) ≠ 0 ∧ gf.mul (gf.div 5 7) 7 = 5 :=
⟨by decide, by decide, by decide, c7_mul_div_cancel 5 7 (by decide) (by decide) (by decide)⟩

/-- C8 counterexample: `pow` and `inverse` do not special-case a zero
base; they read the sentinel `LOG[0] = 0` as a real logarithm, so
`pow(0, 1) = EXP[0] = 1` and `inverse(0) = EXP[255] = 1` instead of the 0
a zero special case would produce. -/
theorem c8_counterexample : gf.pow 0 1 = 1 ∧ gf.inverse 0 = 1 ∧ (1 : Nat) ≠ 0 :=
⟨by decide, by decide, by decide⟩

/-- C8 (amended): `mul` returns 0 when either operand is 0 and `div`
returns 0 when the dividend is 0, but `pow` and `inverse` do not
special-case a zero base: they treat the log-table sentinel `LOG[0] = 0`
as a real logarithm, giving `pow(0, n) = 1` for every exponent and
`inverse(0) = 1`. -/
theorem c8_zero_handling :
    (∀ y : Nat, gf.mul 0 y = 0) ∧ (∀ x : Nat, gf.mul x 0 = 0) ∧
    (∀ y : Nat, gf.div 0 y = 0) ∧
    (∀ n : Int, gf.pow 0 n = 1) ∧ gf.inverse 0 = 1 := by
refine ⟨fun y => by simp [gf.mul], fun x => by simp [gf.mul],
        fun y => by simp [gf.div], fun n => ?_, by decide⟩
have h0 : gf.LOG.getD 0 0 = 0 := by decide
simp only [gf.pow, h0, Nat.cast_zero, zero_mul, Int.zero_tmod]
norm_num
decide


theorem length_mapIdxFrom (f : Nat → Nat → Nat) (l : List Nat) :
    ∀ i, (mapIdxFrom f i l).length = l.length := by
induction l with
| nil => intro i; rfl
| cons x xs ih => intro i; simp [mapIdxFrom, ih]

theorem getElem?_mapIdxFrom (f : Nat → Nat → Nat) (l : List Nat) :
    ∀ i j, (mapIdxFrom f i l)[j]? = Option.map (f (i + j)) l[j]? := by
induction l with
| nil => intro i j; simp [mapIdxFrom]
| cons x xs ih =>
  intro i j
  cases j with
  | zero => simp [mapIdxFrom]
  | succ j =>
    simp only [mapIdxFrom, List.getElem?_cons_succ]
    rw [ih (i + 1) j]
    have h : i + 1 + j = i + (j + 1) := by omega
    rw [h]

theorem mapIdxFrom_append (f : Nat → Nat → Nat) (t : List Nat) :
    ∀ (i : Nat) (r : List Nat),
      mapIdxFrom f i (t ++ r) = mapIdxFrom f i t ++ mapIdxFrom f (i + t.length) r := by
induction t with
| nil => intro i r; simp [mapIdxFrom]
| cons x xs ih =>
  intro i r
  simp only [List.cons_append, mapIdxFrom, List.append_eq, List.length_cons]
  rw [ih (i + 1) r]
  have h : i + 1 + xs.length = i + (xs.length + 1) := by omega
  rw [h]

theorem mapIdxFrom_eq_self (f : Nat → Nat → Nat) (l : List Nat) :
    ∀ i, (∀ j x, i ≤ j → f j x = x) → mapIdxFrom f i l = l := by
induction l with
| nil => intro i _; rfl
| cons x xs ih =>
  intro i h
  simp only [mapIdxFrom, h i x (le_refl i), List.cons.injEq, true_and]
  exact ih (i + 1) (fun j y hj => h j y (by omega))

theorem mapIdxFrom_shift (f g : Nat → Nat → Nat) (k : Nat)
    (h : ∀ j x, f (j + k) x = g j x) (l : List Nat) :
    ∀ i, mapIdxFrom f (i + k) l = mapIdxFrom g i l := by
induction l with
| nil => intro i; rfl
| cons x xs ih =>
  intro i
  simp only [mapIdxFrom, List.cons.injEq]
  constructor
  · have hh := h i x
    rw [← hh]
  · have he : i + k + 1 = (i + 1) + k := by omega
    rw [he, ih (i + 1)]

theorem length_rotl1 (l : List Nat) : (rotl1 l).length = l.length := by
simp [rotl1]
omega

theorem set_append_last (u : List Nat) (c d : Nat) :
    (u ++ [c]).set u.length d = u ++ [d] := by
induction u with
| nil => rfl
| cons x xs ih => simp [ih]

theorem length_stepHead (lgen s : List Nat) :
    (stepHead lgen s).length = s.length - 1 := by
cases s with
| nil => rfl
| cons c t =>
  by_cases hc : c = 0 <;> simp [stepHead, hc, length_mapIdxFrom]

theorem stepHead_append (lgen w r : List Nat) (h1 : 1 ≤ lgen.length)
    (h2 : lgen.length ≤ w.length) :
    stepHead lgen (w ++ r) = stepHead lgen w ++ r := by
cases w with
| nil => simp only [List.length_nil, Nat.le_zero] at h2; omega
| cons c t =>
  by_cases hc : c = 0
  · simp [stepHead, hc]
  · simp only [List.cons_append, stepHead, if_neg hc]
    rw [mapIdxFrom_append _ t 0 r]
    have hid : mapIdxFrom (fun j x =>
        if j + 1 < lgen.length
        then x ^^^ gf.EXP.getD (gf.LOG.getD c 0 + lgen.getD (j + 1) 0) 0
        else x) (0 + t.length) r = r := by
      apply mapIdxFrom_eq_self
      intro j x hj
      have hcond : ¬(j + 1 < lgen.length) := by
        simp only [List.length_cons] at h2
        omega
      rw [if_neg hcond]
    rw [hid]

theorem stepHead_iterate_append (lgen : List Nat) (h1 : 1 ≤ lgen.length) :
    ∀ (m : Nat) (w r : List Nat), lgen.length + m ≤ w.length + 1 →
      (stepHead lgen)^[m] (w ++ r) = (stepHead lgen)^[m] w ++ r := by
intro m
induction m with
| zero => intro w r _; simp
| succ m ih =>
  intro w r h
  rw [Function.iterate_succ_apply, Function.iterate_succ_apply,
      stepHead_append lgen w r h1 (by omega),
      ih (stepHead lgen w) r (by rw [length_stepHead]; omega)]

theorem length_stepHead_iterate (lgen : List Nat) :
    ∀ (m : Nat) (w : List Nat), ((stepHead lgen)^[m] w).length = w.length - m := by
intro m
induction m with
| zero => intro w; simp
| succ m ih =>
  intro w
  rw [Function.iterate_succ_apply, ih, length_stepHead]
  omega

/-- Unfolded form of `run_encoding_round` (definitional). -/
theorem run_eq_ite (e : Encoder) : e.run_encoding_round =
    if e.scratch_space.getD 0 0 = 0 then e
    else { e with
      scratch_space := mapIdxFrom
        (fun j x =>
          if 1 ≤ j ∧ j < e.generator.length
          then x ^^^ gf.EXP.getD (gf.LOG.getD (e.scratch_space.getD 0 0) 0 + e.lgenerator.getD j 0) 0
          else x)
        0 e.scratch_space } := rfl

theorem run_generator (e : Encoder) : e.run_encoding_round.generator = e.generator := by
rw [run_eq_ite]; split <;> rfl

theorem run_lgenerator (e : Encoder) : e.run_encoding_round.lgenerator = e.lgenerator := by
rw [run_eq_ite]; split <;> rfl

theorem run_bytes (e : Encoder) : e.run_encoding_round.bytes_processed = e.bytes_processed := by
rw [run_eq_ite]; split <;> rfl

theorem run_scratch_length (e : Encoder) :
    e.run_encoding_round.scratch_space.length = e.scratch_space.length := by
rw [run_eq_ite]; split
· rfl
· exact length_mapIdxFrom _ _ 0

/-- One encoding round keeps the leading scratch byte and performs the
division step `stepHead` on the rest of the window. -/
theorem run_scratch_eq (e : Encoder) (c : Nat) (t : List Nat)
    (hs : e.scratch_space = c :: t) (hl : e.lgenerator.length = e.generator.length) :
    e.run_encoding_round.scratch_space = c :: stepHead e.lgenerator e.scratch_space := by
rw [run_eq_ite, hs]
have hgd : (c :: t).getD 0 0 = c := rfl
rw [hgd]
by_cases hc : c = 0
· rw [if_pos hc]
  rw [hs]
  simp [stepHead, hc]
· rw [if_neg hc]
  dsimp only
  simp only [mapIdxFrom, stepHead, if_neg hc]
  rw [if_neg (show ¬(1 ≤ 0 ∧ 0 < e.generator.length) by omega)]
  refine congrArg (List.cons c) ?_
  have hshift : ∀ j x, (if 1 ≤ j + 1 ∧ j + 1 < e.generator.length
      then x ^^^ gf.EXP.getD (gf.LOG.getD c 0 + e.lgenerator.getD (j + 1) 0) 0
      else x)
      = (if j + 1 < e.lgenerator.length
          then x ^^^ gf.EXP.getD (gf.LOG.getD c 0 + e.lgenerator.getD (j + 1) 0) 0
          else x) := by
    intro j x
    by_cases hj : j + 1 < e.generator.length
    · rw [if_pos ⟨by omega, hj⟩, if_pos (by rw [hl]; exact hj)]
    · rw [if_neg (by omega), if_neg (by rw [hl]; exact hj)]
  exact mapIdxFrom_shift _ _ 1 hshift t 0

/-- Effect of one round followed by rotate-and-insert on a full window:
drop the processed head and append the fresh byte. -/
theorem steady_scratch (e : Encoder) (d : Nat)
    (hl : e.lgenerator.length = e.generator.length)
    (hs : e.scratch_space.length = e.generator.length)
    (hg : 1 ≤ e.generator.length) :
    (rotl1 e.run_encoding_round.scratch_space).set (e.generator.length - 1) d
      = stepHead e.lgenerator e.scratch_space ++ [d] := by
obtain ⟨c, t, hct⟩ : ∃ c t, e.scratch_space = c :: t := by
  cases hsc : e.scratch_space with
  | nil => rw [hsc] at hs; simp at hs; omega
  | cons c t => exact ⟨c, t, rfl⟩
rw [run_scratch_eq e c t hct hl]
have hrot : rotl1 (c :: stepHead e.lgenerator e.scratch_space)
    = stepHead e.lgenerator e.scratch_space ++ [c] := by
  simp [rotl1]
rw [hrot]
have hlen : (stepHead e.lgenerator e.scratch_space).length = e.generator.length - 1 := by
  rw [length_stepHead, hs]
rw [← hlen, set_append_last]

theorem fr_generator (e : Encoder) : e.finalize_round.generator = e.generator := by
simp only [Encoder.finalize_round]
exact run_generator e

theorem fr_lgenerator (e : Encoder) : e.finalize_round.lgenerator = e.lgenerator := by
simp only [Encoder.finalize_round]
exact run_lgenerator e

theorem fr_bytes (e : Encoder) : e.finalize_round.bytes_processed = e.bytes_processed := by
simp only [Encoder.finalize_round]
exact run_bytes e

theorem fr_scratch_length (e : Encoder) :
    e.finalize_round.scratch_space.length = e.scratch_space.length := by
simp only [Encoder.finalize_round]
rw [List.length_set, length_rotl1, run_scratch_length]

theorem fr_scratch (e : Encoder)
    (hl : e.lgenerator.length = e.generator.length)
    (hs : e.scratch_space.length = e.generator.length)
    (hg : 1 ≤ e.generator.length) :
    e.finalize_round.scratch_space = stepHead e.lgenerator e.scratch_space ++ [0] := by
simp only [Encoder.finalize_round, run_generator]
exact steady_scratch e 0 hl hs hg

theorem fr_iter_generator :
    ∀ (j : Nat) (E : Encoder), (Encoder.finalize_round^[j] E).generator = E.generator := by
intro j
induction j with
| zero => intro E; rfl
| succ j ih => intro E; rw [Function.iterate_succ_apply, ih, fr_generator]

theorem fr_iter_lgenerator :
    ∀ (j : Nat) (E : Encoder), (Encoder.finalize_round^[j] E).lgenerator = E.lgenerator := by
intro j
induction j with
| zero => intro E; rfl
| succ j ih => intro E; rw [Function.iterate_succ_apply, ih, fr_lgenerator]

theorem fr_iter_bytes :
    ∀ (j : Nat) (E : Encoder),
      (Encoder.finalize_round^[j] E).bytes_processed = E.bytes_processed := by
intro j
induction j with
| zero => intro E; rfl
| succ j ih => intro E; rw [Function.iterate_succ_apply, ih, fr_bytes]

theorem fr_iter_scratch_length :
    ∀ (j : Nat) (E : Encoder),
      (Encoder.finalize_round^[j] E).scratch_space.length = E.scratch_space.length := by
intro j
induction j with
| zero => intro E; rfl
| succ j ih => intro E; rw [Function.iterate_succ_apply, ih, fr_scratch_length]

/-- Iterated finalize rounds on a full window compute iterated division
steps on the window extended with one fed-in zero per round. -/
theorem finalize_round_iterate :
    ∀ (j : Nat) (E : Encoder),
      E.lgenerator.length = E.generator.length →
      E.scratch_space.length = E.generator.length →
      1 ≤ E.generator.length →
      (Encoder.finalize_round^[j] E).scratch_space
        = (stepHead E.lgenerator)^[j] (E.scratch_space ++ List.replicate j 0) := by
intro j
induction j with
| zero => intro E _ _ _; simp
| succ j ih =>
  intro E h1 h2 h3
  rw [Function.iterate_succ_apply]
  have hsc : E.finalize_round.scratch_space
      = stepHead E.lgenerator E.scratch_space ++ [0] := fr_scratch E h1 h2 h3
  have hl' : E.finalize_round.lgenerator.length = E.finalize_round.generator.length := by
    rw [fr_lgenerator, fr_generator]; exact h1
  have hs' : E.finalize_round.scratch_space.length = E.finalize_round.generator.length := by
    rw [fr_scratch_length, fr_generator]; exact h2
  have hg' : 1 ≤ E.finalize_round.generator.length := by
    rw [fr_generator]; exact h3
  rw [ih E.finalize_round hl' hs' hg', fr_lgenerator, hsc]
  rw [Function.iterate_succ_apply]
  rw [stepHead_append E.lgenerator E.scratch_space (List.replicate (j + 1) 0)
      (by omega) (by omega)]
  rw [List.append_assoc]
  have hrep : (0 : Nat) :: List.replicate j 0 = List.replicate (j + 1) 0 := by
    simp [List.replicate_succ]
  rw [← hrep]
  rfl

/-- Successful finalize: whenever the scratch buffer is non-empty, the
state is reset and exactly `generator.length - 1` ECC bytes come back. -/
theorem finalize_success (e : Encoder) (h : ¬ e.scratch_space.length = 0) :
    (e.finalize).1 = e.reset ∧
    ∃ out, (e.finalize).2 = some out ∧ out.length = e.generator.length - 1 := by
unfold Encoder.finalize
rw [if_neg h]
dsimp only
by_cases hlt : e.scratch_space.length < e.generator.length
· rw [if_pos hlt, if_pos hlt]
  constructor
  · refine Encoder.ext ?_ ?_ ?_ ?_ <;>
      simp [Encoder.reset, fr_iter_generator, fr_iter_lgenerator]
  · refine ⟨_, rfl, ?_⟩
    rw [List.length_take, fr_iter_scratch_length]
    dsimp only
    rw [List.length_append, List.length_replicate]
    omega
· rw [if_neg hlt, if_neg hlt]
  constructor
  · refine Encoder.ext ?_ ?_ ?_ ?_ <;>
      simp [Encoder.reset, fr_iter_generator, fr_iter_lgenerator]
  · refine ⟨_, rfl, ?_⟩
    rw [List.length_take, fr_iter_scratch_length]
    omega

/-- Failing finalize: the error is returned exactly when the scratch
buffer is empty, and then the state is left untouched. -/
theorem finalize_none_iff (e : Encoder) : (e.finalize).2 = none ↔ e.scratch_space = [] := by
constructor
· intro h
  by_contra hne
  have hlen : ¬ e.scratch_space.length = 0 := by
    simpa [List.length_eq_zero] using hne
  obtain ⟨-, out, hsome, -⟩ := finalize_success e hlen
  rw [hsome] at h
  simp at h
· intro h
  unfold Encoder.finalize
  rw [if_pos (by rw [h]; rfl)]

/-- Value computed by a successful finalize, as iterated division steps on
the zero-padded scratch buffer. -/
theorem finalize_snd_eq (e : Encoder)
    (hl : e.lgenerator.length = e.generator.length)
    (h1 : 1 ≤ e.scratch_space.length)
    (h2 : e.scratch_space.length ≤ e.generator.length) :
    (e.finalize).2 = some (((stepHead e.lgenerator)^[e.scratch_space.length]
        (e.scratch_space ++ List.replicate e.generator.length 0)).take
      (e.generator.length - 1)) := by
unfold Encoder.finalize
rw [if_neg (by omega)]
dsimp only
have hG1 : 1 ≤ e.generator.length := by omega
by_cases hlt : e.scratch_space.length < e.generator.length
· rw [if_pos hlt, if_pos hlt]
  have hiter := finalize_round_iterate e.scratch_space.length
      { e with scratch_space := e.scratch_space ++
          List.replicate (e.generator.length - e.scratch_space.length) 0 }
      hl (by dsimp only; rw [List.length_append, List.length_replicate]; omega) hG1
  dsimp only at hiter
  rw [hiter]
  rw [List.append_assoc, ← List.replicate_add]
  have hc : e.generator.length - e.scratch_space.length + e.scratch_space.length
      = e.generator.length := by omega
  rw [hc]
· rw [if_neg hlt, if_neg hlt]
  have hseq : e.scratch_space.length = e.generator.length := by omega
  have hiter := finalize_round_iterate e.generator.length e hl hseq hG1
  rw [hiter, hseq]

theorem encode_single_filling (e : Encoder) (d : Nat)
    (h : e.scratch_space.length < e.generator.length) :
    e.encode_single d
      = ({ e with
            scratch_space := e.scratch_space ++ [d],
            bytes_processed := (e.bytes_processed + 1) % 256 }, [d]) := by
unfold Encoder.encode_single
rw [if_pos h]

theorem encode_single_steady (e : Encoder) (d : Nat)
    (hl : e.lgenerator.length = e.generator.length)
    (hs : e.scratch_space.length = e.generator.length)
    (hg : 1 ≤ e.generator.length)
    (hnb : ¬ (e.bytes_processed + 1) % 256 = (256 - e.generator.length) % 256) :
    e.encode_single d
      = ({ e with
            scratch_space := stepHead e.lgenerator e.scratch_space ++ [d],
            bytes_processed := (e.bytes_processed + 1) % 256 }, [d]) := by
unfold Encoder.encode_single
rw [if_neg (by omega)]
dsimp only
rw [if_neg (by rw [run_bytes, run_generator]; exact hnb)]
refine Prod.ext ?_ rfl
refine Encoder.ext ?_ ?_ ?_ ?_
· exact run_generator e
· exact run_lgenerator e
· show (rotl1 e.run_encoding_round.scratch_space).set
      (e.run_encoding_round.generator.length - 1) d
    = stepHead e.lgenerator e.scratch_space ++ [d]
  rw [run_generator]
  exact steady_scratch e d hl hs hg
· show (e.run_encoding_round.bytes_processed + 1) % 256 = (e.bytes_processed + 1) % 256
  rw [run_bytes]

theorem encode_single_trigger (e : Encoder) (d : Nat)
    (hl : e.lgenerator.length = e.generator.length)
    (hs : e.scratch_space.length = e.generator.length)
    (hg : 1 ≤ e.generator.length)
    (hb : (e.bytes_processed + 1) % 256 = (256 - e.generator.length) % 256) :
    (e.encode_single d).1.scratch_space = [] ∧
    (e.encode_single d).1.bytes_processed = 0 ∧
    (e.encode_single d).1.generator = e.generator ∧
    (e.encode_single d).1.lgenerator = e.lgenerator ∧
    ∃ out, (e.encode_single d).2 = d :: out ∧
      out.length = e.generator.length - 1 := by
unfold Encoder.encode_single
rw [if_neg (by omega)]
dsimp only
set E2 : Encoder :=
  { e.run_encoding_round with
      scratch_space := (rotl1 e.run_encoding_round.scratch_space).set
        (e.run_encoding_round.generator.length - 1) d,
      bytes_processed := (e.run_encoding_round.bytes_processed + 1) % 256 } with hE2
have hcond : E2.bytes_processed = (256 - E2.generator.length) % 256 := by
  rw [hE2]
  show (e.run_encoding_round.bytes_processed + 1) % 256
      = (256 - e.run_encoding_round.generator.length) % 256
  rw [run_bytes, run_generator]
  exact hb
rw [if_pos hcond]
have hne : ¬ E2.scratch_space.length = 0 := by
  rw [hE2]
  show ¬ ((rotl1 e.run_encoding_round.scratch_space).set
      (e.run_encoding_round.generator.length - 1) d).length = 0
  rw [List.length_set, length_rotl1, run_scratch_length]
  omega
obtain ⟨hfst, out, hsnd, hlen⟩ := finalize_success E2 hne
have hpair : E2.finalize = (E2.reset, some out) := Prod.ext hfst hsnd
rw [hpair]
dsimp only
refine ⟨rfl, rfl, ?_, ?_, out, rfl, ?_⟩
· show E2.generator = e.generator
  rw [hE2]
  show e.run_encoding_round.generator = e.generator
  exact run_generator e
· show E2.lgenerator = e.lgenerator
  rw [hE2]
  show e.run_encoding_round.lgenerator = e.lgenerator
  exact run_lgenerator e
· rw [hlen, hE2]
  show e.run_encoding_round.generator.length - 1 = e.generator.length - 1
  rw [run_generator]

theorem feed_nil (e : Encoder) : e.feed [] = (e, []) := rfl

theorem feed_append_single (e : Encoder) (xs : List Nat) (b : Nat) :
    e.feed (xs ++ [b]) = (e.feed xs).1.encode_single b := by
simp [Encoder.feed, List.foldl_append]

/-- State of the streaming encoder after feeding `data` byte by byte from
a fresh encoder: as long as the data fits in a single block, the window
holds the iterated division steps of the fed prefix and the byte counter
counts the bytes. -/
theorem feed_state (gen : List Nat) (hg : 1 ≤ gen.length) :
    ∀ (data : List Nat), data.length < 256 - gen.length →
      ((new_with_precomputed_generator gen).feed data).1.generator = gen ∧
      ((new_with_precomputed_generator gen).feed data).1.lgenerator = make_lgenerator gen ∧
      ((new_with_precomputed_generator gen).feed data).1.bytes_processed = data.length ∧
      ((new_with_precomputed_generator gen).feed data).1.scratch_space
        = (stepHead (make_lgenerator gen))^[data.length - gen.length] data := by
intro data
induction data using List.reverseRecOn with
| nil =>
  intro _
  refine ⟨rfl, rfl, rfl, ?_⟩
  have h0 : ([] : List Nat).length - gen.length = 0 := by simp
  rw [h0]
  rfl
| append_singleton xs b ih =>
  intro h
  have hxb : (xs ++ [b]).length = xs.length + 1 := by
    rw [List.length_append]; rfl
  have hx : xs.length < 256 - gen.length := by omega
  obtain ⟨g1, g2, g3, g4⟩ := ih hx
  rw [feed_append_single]
  have hLlen : (make_lgenerator gen).length = gen.length := by
    simp [make_lgenerator]
  by_cases hcase : xs.length < gen.length
  · have h0 : xs.length - gen.length = 0 := by omega
    rw [h0] at g4
    simp only [Function.iterate_zero, id_eq] at g4
    have hfill : ((new_with_precomputed_generator gen).feed xs).1.scratch_space.length
        < ((new_with_precomputed_generator gen).feed xs).1.generator.length := by
      rw [g4, g1]; exact hcase
    rw [encode_single_filling _ b hfill]
    refine ⟨g1, g2, ?_, ?_⟩
    · show (((new_with_precomputed_generator gen).feed xs).1.bytes_processed + 1) % 256
          = (xs ++ [b]).length
      rw [g3, hxb]
      exact Nat.mod_eq_of_lt (by omega)
    · show ((new_with_precomputed_generator gen).feed xs).1.scratch_space ++ [b]
          = (stepHead (make_lgenerator gen))^[(xs ++ [b]).length - gen.length] (xs ++ [b])
      rw [g4]
      have h1 : (xs ++ [b]).length - gen.length = 0 := by omega
      rw [h1]
      rfl
  · push_neg at hcase
    have hsl : ((new_with_precomputed_generator gen).feed xs).1.scratch_space.length
        = ((new_with_precomputed_generator gen).feed xs).1.generator.length := by
      rw [g4, length_stepHead_iterate, g1]
      omega
    have hnb : ¬ (((new_with_precomputed_generator gen).feed xs).1.bytes_processed + 1) % 256
        = (256 - ((new_with_precomputed_generator gen).feed xs).1.generator.length) % 256 := by
      rw [g3, g1]
      rw [Nat.mod_eq_of_lt (show xs.length + 1 < 256 by omega),
          Nat.mod_eq_of_lt (show 256 - gen.length < 256 by omega)]
      omega
    rw [encode_single_steady _ b
        (by rw [g2, g1, hLlen]) hsl (by rw [g1]; exact hg) hnb]
    refine ⟨g1, g2, ?_, ?_⟩
    · show (((new_with_precomputed_generator gen).feed xs).1.bytes_processed + 1) % 256
          = (xs ++ [b]).length
      rw [g3, hxb]
      exact Nat.mod_eq_of_lt (by omega)
    · show stepHead ((new_with_precomputed_generator gen).feed xs).1.lgenerator
            ((new_with_precomputed_generator gen).feed xs).1.scratch_space ++ [b]
          = (stepHead (make_lgenerator gen))^[(xs ++ [b]).length - gen.length] (xs ++ [b])
      rw [g4, g2]
      have hm : (xs ++ [b]).length - gen.length = (xs.length - gen.length) + 1 := by
        omega
      rw [hm]
      rw [stepHead_iterate_append (make_lgenerator gen) (by omega)
          ((xs.length - gen.length) + 1) xs [b] (by omega)]
      rw [Function.iterate_succ_apply']

theorem encode_of_finalize (e : Encoder) (data : List Nat) (E2 : Encoder) (ecc : List Nat)
    (h : ((e.feed data).1).finalize = (E2, some ecc)) :
    e.encode data = (E2, ecc) := by
unfold Encoder.encode
dsimp only
rw [h]

/-- Feeding a whole in-range message and finalizing resets the encoder to
its freshly constructed state and yields the iterated-division remainder. -/
theorem feed_finalize (gen data : List Nat) (hg : 1 ≤ gen.length)
    (hd : 1 ≤ data.length) (hfit : data.length < 256 - gen.length) :
    ((new_with_precomputed_generator gen).feed data).1.finalize
      = (new_with_precomputed_generator gen,
         some ((((stepHead (make_lgenerator gen))^[data.length])
            (data ++ List.replicate gen.length 0)).take (gen.length - 1))) := by
obtain ⟨g1, g2, g3, g4⟩ := feed_state gen hg data hfit
have hLlen : (make_lgenerator gen).length = gen.length := by simp [make_lgenerator]
have hsl : ((new_with_precomputed_generator gen).feed data).1.scratch_space.length
    = data.length - (data.length - gen.length) := by
  rw [g4, length_stepHead_iterate]
have h1 : 1 ≤ ((new_with_precomputed_generator gen).feed data).1.scratch_space.length := by
  omega
have h2 : ((new_with_precomputed_generator gen).feed data).1.scratch_space.length
    ≤ ((new_with_precomputed_generator gen).feed data).1.generator.length := by
  rw [g1]; omega
have hl : ((new_with_precomputed_generator gen).feed data).1.lgenerator.length
    = ((new_with_precomputed_generator gen).feed data).1.generator.length := by
  rw [g1, g2, hLlen]
have hfst := (finalize_success ((new_with_precomputed_generator gen).feed data).1
    (by omega)).1
have hsnd := finalize_snd_eq ((new_with_precomputed_generator gen).feed data).1 hl h1 h2
refine Prod.ext ?_ ?_
· rw [hfst]
  exact Encoder.ext g1 g2 rfl rfl
· rw [hsnd]
  dsimp only
  rw [g1, g2, g4, length_stepHead_iterate]
  by_cases hc : data.length ≤ gen.length
  · have h0 : data.length - gen.length = 0 := by omega
    rw [h0]
    simp only [Function.iterate_zero, id_eq, Nat.sub_zero]
  · push_neg at hc
    rw [← stepHead_iterate_append (make_lgenerator gen) (by omega)
        (data.length - gen.length) data (List.replicate gen.length 0) (by omega)]
    rw [← Function.iterate_add_apply]
    have hcnt : data.length - (data.length - gen.length) + (data.length - gen.length)
        = data.length := by omega
    rw [hcnt]

theorem make_lgenerator_getD (gen : List Nat) (k : Nat) :
    (make_lgenerator gen).getD k 0 = gf.LOG.getD (gen.getD k 0) 0 := by
unfold make_lgenerator
rw [List.getD_eq_getElem?_getD, List.getElem?_map,
    List.getD_eq_getElem?_getD gen k 0]
cases hk : gen[k]? with
| none => decide
| some g => rfl

theorem length_spec_round (gen s : List Nat) (i : Nat) :
    (spec_round gen s i).length = s.length := by
unfold spec_round
dsimp only
by_cases hz : s.getD i 0 = 0
· rw [if_pos hz]
· rw [if_neg hz]
  exact length_mapIdxFrom _ _ 0

/-- Row `i` of the batch algorithm, viewed from position `i` onward, is
exactly one division step. -/
theorem spec_round_drop (gen s : List Nat) (i : Nat) :
    (spec_round gen s i).drop (i + 1) = stepHead (make_lgenerator gen) (s.drop i) := by
have hLlen : (make_lgenerator gen).length = gen.length := by simp [make_lgenerator]
by_cases hi : i < s.length
· have hdc := List.drop_eq_getElem_cons hi
  have hpiv : s.getD i 0 = s[i] := by
    rw [List.getD_eq_getElem?_getD, List.getElem?_eq_getElem hi]
    rfl
  unfold spec_round
  dsimp only
  by_cases hz : s.getD i 0 = 0
  · rw [if_pos hz]
    rw [hdc]
    have hz' : s[i] = 0 := by rw [← hpiv]; exact hz
    simp [stepHead, hz']
  · rw [if_neg hz]
    rw [hdc]
    simp only [stepHead]
    rw [if_neg (by rw [← hpiv]; exact hz)]
    apply List.ext_getElem?
    intro n
    rw [List.getElem?_drop, getElem?_mapIdxFrom, getElem?_mapIdxFrom, List.getElem?_drop]
    cases hsv : s[i + 1 + n]? with
    | none => rfl
    | some v =>
      simp only [Option.map_some']
      congr 1
      simp only [Nat.zero_add]
      by_cases hcd : n + 1 < gen.length
      · rw [if_pos ⟨by omega, by omega⟩, if_pos (by rw [hLlen]; omega)]
        have hidx : i + 1 + n - i = n + 1 := by omega
        rw [hidx, hpiv, make_lgenerator_getD]
      · rw [if_neg (by omega), if_neg (by rw [hLlen]; omega)]
· have hdl : s.drop i = [] := List.drop_eq_nil_of_le (by omega)
  have hpiv : s.getD i 0 = 0 := by
    rw [List.getD_eq_getElem?_getD, List.getElem?_eq_none (by omega)]
    rfl
  unfold spec_round
  dsimp only
  rw [if_pos hpiv]
  rw [List.drop_eq_nil_of_le (by omega), hdl]
  rfl

/-- The processed region of the batch scratch buffer after `m` rows is the
`m`-fold iterated division step. -/
theorem spec_scratch_drop (gen data : List Nat) :
    ∀ m, ((List.range m).foldl (spec_round gen)
        (data ++ List.replicate (gen.length - 1) 0)).drop m
      = (stepHead (make_lgenerator gen))^[m]
          (data ++ List.replicate (gen.length - 1) 0) := by
intro m
induction m with
| zero => simp
| succ m ih =>
  rw [List.range_succ, List.foldl_append]
  simp only [List.foldl_cons, List.foldl_nil]
  rw [spec_round_drop, ih, Function.iterate_succ_apply']

theorem spec_batch_encode_eq (gen data : List Nat) :
    spec_batch_encode gen data
      = (stepHead (make_lgenerator gen))^[data.length]
          (data ++ List.replicate (gen.length - 1) 0) := by
unfold spec_batch_encode spec_batch_scratch
exact spec_scratch_drop gen data data.length

theorem length_spec_batch_encode (gen data : List Nat) (hg : 1 ≤ gen.length) :
    (spec_batch_encode gen data).length = gen.length - 1 := by
rw [spec_batch_encode_eq, length_stepHead_iterate, List.length_append,
    List.length_replicate]
omega

/-- ECC bytes returned by the batch `encode`, expressed as iterated
division steps. -/
theorem encode_eq_take (gen data : List Nat) (hg : 1 ≤ gen.length)
    (hd : 1 ≤ data.length) (hfit : data.length < 256 - gen.length) :
    ((new_with_precomputed_generator gen).encode data).2
      = (((stepHead (make_lgenerator gen))^[data.length])
          (data ++ List.replicate gen.length 0)).take (gen.length - 1) := by
have h := feed_finalize gen data hg hd hfit
rw [encode_of_finalize _ data _ _ h]

/-- The streaming/batch encoder computes the batch remainder of spec §4.4. -/
theorem encode_eq_spec (gen data : List Nat) (hg : 1 ≤ gen.length)
    (hd : 1 ≤ data.length) (hfit : data.length < 256 - gen.length) :
    ((new_with_precomputed_generator gen).encode data).2 = spec_batch_encode gen data := by
rw [encode_eq_take gen data hg hd hfit, spec_batch_encode_eq]
have hrep : List.replicate gen.length (0 : Nat)
    = List.replicate (gen.length - 1) 0 ++ [0] := by
  have h1 : List.replicate (gen.length - 1) (0 : Nat) ++ [0]
      = List.replicate (gen.length - 1) 0 ++ List.replicate 1 0 := rfl
  rw [h1, ← List.replicate_add]
  have h2 : gen.length - 1 + 1 = gen.length := by omega
  rw [h2]
have hLlen : (make_lgenerator gen).length = gen.length := by simp [make_lgenerator]
rw [hrep, ← List.append_assoc]
rw [stepHead_iterate_append (make_lgenerator gen) (by omega) data.length
    (data ++ List.replicate (gen.length - 1) 0) [0]
    (by rw [List.length_append, List.length_replicate]; omega)]
have htl := List.take_left
    ((stepHead (make_lgenerator gen))^[data.length]
      (data ++ List.replicate (gen.length - 1) 0)) [0]
have hR : ((stepHead (make_lgenerator gen))^[data.length]
    (data ++ List.replicate (gen.length - 1) 0)).length = gen.length - 1 := by
  rw [length_stepHead_iterate, List.length_append, List.length_replicate]
  omega
rw [hR] at htl
exact htl

theorem stepHead_mem_lt (lgen s : List Nat) (h : ∀ x ∈ s, x < 256) :
    ∀ x ∈ stepHead lgen s, x < 256 := by
cases s with
| nil => intro x hx; simp [stepHead] at hx
| cons c t =>
  by_cases hc : c = 0
  · simp only [stepHead, if_pos hc]
    intro x hx
    exact h x (List.mem_cons_of_mem c hx)
  · simp only [stepHead, if_neg hc]
    intro x hx
    obtain ⟨n, hn⟩ := List.mem_iff_getElem?.1 hx
    rw [getElem?_mapIdxFrom] at hn
    cases ht : t[n]? with
    | none => rw [ht] at hn; simp at hn
    | some v =>
      rw [ht] at hn
      simp only [Option.map_some'] at hn
      have hv : v < 256 :=
        h v (List.mem_cons_of_mem c (List.mem_iff_getElem?.2 ⟨n, ht⟩))
      have hx' : (if (0 + n) + 1 < lgen.length
          then v ^^^ gf.EXP.getD (gf.LOG.getD c 0 + lgen.getD ((0 + n) + 1) 0) 0
          else v) = x := Option.some.inj hn
      rw [← hx']
      by_cases hcond : (0 + n) + 1 < lgen.length
      · rw [if_pos hcond]
        have hE : gf.EXP.getD (gf.LOG.getD c 0 + lgen.getD ((0 + n) + 1) 0) 0 < 256 :=
          exp_getD_lt_256 _
        have hv8 : v < 2 ^ 8 := by omega
        have hE8 : gf.EXP.getD (gf.LOG.getD c 0 + lgen.getD ((0 + n) + 1) 0) 0 < 2 ^ 8 := by
          omega
        have := Nat.xor_lt_two_pow hv8 hE8
        omega
      · rw [if_neg hcond]
        exact hv

/-- The well-formedness invariant is preserved by `encode_single` on byte
input. -/
theorem WF_encode_single (e : Encoder) (hW : WF e) (d : Nat) (hd : d < 256) :
    WF (e.encode_single d).1 := by
obtain ⟨hcap, hlg, hsb, hgb, hg1⟩ := hW
have hl : e.lgenerator.length = e.generator.length := by
  rw [hlg]; simp [make_lgenerator]
by_cases hfill : e.scratch_space.length < e.generator.length
· rw [encode_single_filling e d hfill]
  refine ⟨?_, hlg, ?_, hgb, hg1⟩
  · show (e.scratch_space ++ [d]).length ≤ e.generator.length
    rw [List.length_append]
    simp only [List.length_singleton]
    omega
  · intro x hx
    rcases List.mem_append.1 hx with h | h
    · exact hsb x h
    · simp only [List.mem_singleton] at h
      omega
· have hs : e.scratch_space.length = e.generator.length := by omega
  by_cases hb : (e.bytes_processed + 1) % 256 = (256 - e.generator.length) % 256
  · obtain ⟨h1, h2, h3, h4, -⟩ := encode_single_trigger e d hl hs hg1 hb
    refine ⟨?_, ?_, ?_, ?_, ?_⟩
    · rw [h1, h3]; simp
    · rw [h4, h3, hlg]
    · rw [h1]; intro x hx; simp at hx
    · rw [h3]; exact hgb
    · rw [h3]; exact hg1
  · rw [encode_single_steady e d hl hs hg1 hb]
    refine ⟨?_, hlg, ?_, hgb, hg1⟩
    · show (stepHead e.lgenerator e.scratch_space ++ [d]).length ≤ e.generator.length
      rw [List.length_append, length_stepHead]
      simp only [List.length_singleton]
      omega
    · intro x hx
      rcases List.mem_append.1 hx with h | h
      · exact stepHead_mem_lt e.lgenerator e.scratch_space hsb x h
      · simp only [List.mem_singleton] at h
        omega

/-- The well-formedness invariant is preserved by `finalize`. -/
theorem WF_finalize (e : Encoder) (hW : WF e) : WF (e.finalize).1 := by
obtain ⟨hcap, hlg, hsb, hgb, hg1⟩ := hW
by_cases hemp : e.scratch_space.length = 0
· have hid : (e.finalize).1 = e := by
    unfold Encoder.finalize
    rw [if_pos hemp]
  rw [hid]
  exact ⟨hcap, hlg, hsb, hgb, hg1⟩
· obtain ⟨hfst, -⟩ := finalize_success e hemp
  rw [hfst]
  refine ⟨?_, ?_, ?_, ?_, ?_⟩
  · show ([] : List Nat).length ≤ e.generator.length
    simp
  · show e.lgenerator = make_lgenerator e.generator
    exact hlg
  · intro x hx
    simp [Encoder.reset] at hx
  · exact hgb
  · exact hg1

theorem generator_poly_succ (n : Nat) :
    generator_poly (n + 1) = polyMul (generator_poly n) [1, gf.pow 2 (n : Int)] := by
unfold generator_poly
rw [List.range_succ, List.foldl_append]
simp only [List.foldl_cons, List.foldl_nil]

theorem range_one_eq : List.range 1 = [0] := rfl

theorem length_polyMul (a b : List Nat) :
    (polyMul a b).length = a.length + b.length - 1 := by
simp [polyMul]

theorem getD_map_range_zero (m : Nat) (f : Nat → Nat) (h : 0 < m) :
    ((List.range m).map f).getD 0 0 = f 0 := by
cases m with
| zero => omega
| succ k =>
  rw [List.range_succ_eq_map]
  rfl

theorem polyMul_head (a b : List Nat) (ha : 1 ≤ a.length) (hb : 1 ≤ b.length)
    (ha1 : a.getD 0 0 = 1) (hb1 : b.getD 0 0 = 1) :
    (polyMul a b).getD 0 0 = 1 := by
unfold polyMul
rw [getD_map_range_zero _ _ (by omega)]
rw [range_one_eq]
simp only [List.foldl_cons, List.foldl_nil]
have h00 : (0 : Nat) - 0 = 0 := rfl
rw [h00, ha1, hb1]
decide

theorem gen_poly_inv (n : Nat) :
    (generator_poly n).length = n + 1 ∧ (generator_poly n).getD 0 0 = 1 := by
induction n with
| zero => exact ⟨rfl, rfl⟩
| succ n ih =>
  obtain ⟨hlen, hhead⟩ := ih
  rw [generator_poly_succ]
  constructor
  · rw [length_polyMul, hlen]
    simp only [List.length_cons, List.length_nil]
    omega
  · exact polyMul_head _ _ (by omega) (by simp) hhead rfl

/-- C1 (amended: the data slice must be non-empty; for empty data the
batch `encode` swallows the finalize error and returns an empty vector).
For every generator of length `ecc_len + 1` and every non-empty data
slice that fits in a single block, the batch `encode` returns exactly the
`ecc_len`-byte remainder computed by the batch synthetic division of spec
§4.4 on the zero-extended message, and feeding the same data byte by byte
through `encode_single` followed by `finalize` yields byte-identical ECC
output. -/
theorem c1_streaming_refines_batch_division (gen data : List Nat)
    (hg : 1 ≤ gen.length) (hd : 1 ≤ data.length)
    (hfit : data.length < 256 - gen.length) :
    ((new_with_precomputed_generator gen).encode data).2 = spec_batch_encode gen data ∧
    (spec_batch_encode gen data).length = gen.length - 1 ∧
    (((new_with_precomputed_generator gen).feed data).1.finalize).2
      = some (((new_with_precomputed_generator gen).encode data).2) := by
refine ⟨encode_eq_spec gen data hg hd hfit, length_spec_batch_encode gen data hg, ?_⟩
have h := feed_finalize gen data hg hd hfit
rw [encode_of_finalize _ data _ _ h, h]

/-- C1 counterexample: for the empty data slice (which fits in a single
block) the batch `encode` returns no bytes at all, not the `ecc_len`-byte
remainder `[0, 0]` of the zero polynomial. -/
theorem c1_counterexample :
    ((new_with_precomputed_generator ENCODE_GEN_2_ECC_BYTES).encode []).2 = [] ∧
    spec_batch_encode ENCODE_GEN_2_ECC_BYTES [] = [0, 0] ∧
    ¬ ((new_with_precomputed_generator ENCODE_GEN_2_ECC_BYTES).encode []).2
        = spec_batch_encode ENCODE_GEN_2_ECC_BYTES [] :=
⟨by decide, by decide, by decide⟩

/-- Witness for C1 at the generator `[1, 3, 2]` and data `[5, 7, 11]`. -/
theorem c1_witness :
    1 ≤ ENCODE_GEN_2_ECC_BYTES.length ∧ 1 ≤ ([5, 7, 11] : List Nat).length ∧
    ([5, 7, 11] : List Nat).length < 256 - ENCODE_GEN_2_ECC_BYTES.length ∧
    ((new_with_precomputed_generator ENCODE_GEN_2_ECC_BYTES).encode [5, 7, 11]).2
      = spec_batch_encode ENCODE_GEN_2_ECC_BYTES [5, 7, 11] :=
⟨by decide, by decide, by decide,
 (c1_streaming_refines_batch_division ENCODE_GEN_2_ECC_BYTES [5, 7, 11]
    (by decide) (by decide) (by decide)).1⟩

/-- C2: batch-encoding the 30-byte message `[0, 1, ..., 29]` with
`ecc_len = 8`, via an encoder built from `generator_poly 8` and via one
built from the precomputed 9-byte generator constant, returns exactly the
ECC bytes `[99, 26, 219, 193, 9, 94, 186, 143]`. -/
theorem c2_golden_vector_30 :
    ((Encoder.new 8).encode
        [0, 1, 2, 3, 4, 5, 6, 7, 8, 9, 10, 11, 12, 13, 14, 15, 16, 17, 18, 19,
         20, 21, 22, 23, 24, 25, 26, 27, 28, 29]).2
      = [99, 26, 219, 193, 9, 94, 186, 143] ∧
    ((new_with_precomputed_generator ENCODE_GEN_8_ECC_BYTES).encode
        [0, 1, 2, 3, 4, 5, 6, 7, 8, 9, 10, 11, 12, 13, 14, 15, 16, 17, 18, 19,
         20, 21, 22, 23, 24, 25, 26, 27, 28, 29]).2
      = [99, 26, 219, 193, 9, 94, 186, 143] :=
⟨by decide, by decide⟩

/-- C3: when fewer bytes than `ecc_len + 1` were buffered, `finalize`
zero-pads the scratch buffer up to the generator length and runs exactly
one encoding round per real input byte (each round feeding one more
zero); in particular, the 5-byte message `[0, 1, 2, 3, 4]` with
`ecc_len = 10` yields `[44, 157, 28, 43, 61, 248, 104, 250, 152, 77]`. -/
theorem c3_short_finalize (gen s : List Nat) (bp : Nat)
    (h1 : 1 ≤ s.length) (h2 : s.length < gen.length) :
    ((Encoder.mk gen (make_lgenerator gen) s bp).finalize).2
      = some (((stepHead (make_lgenerator gen))^[s.length]
          (s ++ List.replicate gen.length 0)).take (gen.length - 1)) ∧
    ((Encoder.new 10).encode [0, 1, 2, 3, 4]).2
      = [44, 157, 28, 43, 61, 248, 104, 250, 152, 77] := by
constructor
· exact finalize_snd_eq (Encoder.mk gen (make_lgenerator gen) s bp)
    (by simp [make_lgenerator]) h1 (Nat.le_of_lt h2)
· decide

/-- Witness for C3 at the generator `[1, 15, 54, 120, 64]` and the two
buffered bytes `[9, 8]`. -/
theorem c3_witness :
    1 ≤ ([9, 8] : List Nat).length ∧
    ([9, 8] : List Nat).length < ENCODE_GEN_4_ECC_BYTES.length ∧
    ((Encoder.mk ENCODE_GEN_4_ECC_BYTES (make_lgenerator ENCODE_GEN_4_ECC_BYTES)
        [9, 8] 2).finalize).2
      = some (((stepHead (make_lgenerator ENCODE_GEN_4_ECC_BYTES))^[2]
          ([9, 8] ++ List.replicate 5 0)).take 4) :=
⟨by decide, by decide,
 (c3_short_finalize ENCODE_GEN_4_ECC_BYTES [9, 8] 2 (by decide) (by decide)).1⟩

/-- C4 (amended: the implicit-finalize threshold is `256 - generator
length` = `255 - ecc_len` bytes since the last reset, not `255 -
generator length`).  In the steady phase, `encode_single` finalizes
implicitly exactly when the incremented counter reaches
`(256 - generator.len) as u8`: that call returns the pass-through byte
followed by the `ecc_len` remainder bytes and clears the counter and
buffer; every other call (filling phase or steady phase below the
threshold) returns only the single pass-through byte. -/
theorem c4_implicit_finalize (e : Encoder) (d : Nat)
    (hl : e.lgenerator.length = e.generator.length)
    (hg : 1 ≤ e.generator.length) :
    (e.scratch_space.length < e.generator.length → (e.encode_single d).2 = [d]) ∧
    (e.scratch_space.length = e.generator.length →
      (¬ (e.bytes_processed + 1) % 256 = (256 - e.generator.length) % 256 →
        (e.encode_single d).2 = [d]) ∧
      ((e.bytes_processed + 1) % 256 = (256 - e.generator.length) % 256 →
        (e.encode_single d).2.length = e.generator.length ∧
        (e.encode_single d).2.headD 0 = d ∧
        (e.encode_single d).1.scratch_space = [] ∧
        (e.encode_single d).1.bytes_processed = 0)) := by
refine ⟨?_, fun hs => ⟨?_, ?_⟩⟩
· intro h
  rw [encode_single_filling e d h]
· intro hnb
  rw [encode_single_steady e d hl hs hg hnb]
· intro hb
  obtain ⟨h1, h2, h3, h4, out, ho, hol⟩ := encode_single_trigger e d hl hs hg hb
  refine ⟨?_, ?_, h1, h2⟩
  · rw [ho]
    simp only [List.length_cons, hol]
    omega
  · rw [ho]
    rfl

/-- C4 counterexample: with `ecc_len = 2` (generator length 3) the claim
places the single-block limit at `255 - 3 = 252` bytes, but the 252nd
`encode_single` call returns only its pass-through byte; the implicit
finalize fires one byte later, on the 253rd call (counter `256 - 3`),
which returns the pass-through byte followed by the two ECC bytes. -/
theorem c4_counterexample :
    ((new_with_precomputed_generator ENCODE_GEN_2_ECC_BYTES).feedZeros 252).bytes_processed
      = 255 - ENCODE_GEN_2_ECC_BYTES.length ∧
    (((new_with_precomputed_generator ENCODE_GEN_2_ECC_BYTES).feedZeros 251).encode_single 0).2
      = [0] ∧
    (((new_with_precomputed_generator ENCODE_GEN_2_ECC_BYTES).feedZeros 252).encode_single 0).2
      = [0, 0, 0] :=
⟨by decide, by decide, by decide⟩

/-- Witness for C4 at a full window with the counter one step below the
implicit trigger. -/
theorem c4_witness :
    ((Encoder.mk [1, 3, 2] (make_lgenerator [1, 3, 2]) [0, 0, 0] 252).encode_single 7).2.length
      = 3 ∧
    ((Encoder.mk [1, 3, 2] (make_lgenerator [1, 3, 2]) [0, 0, 0] 252).encode_single 7).1.scratch_space
      = [] ∧
    ((Encoder.mk [1, 3, 2] (make_lgenerator [1, 3, 2]) [0, 0, 0] 251).encode_single 7).2
      = [7] := by
have h := c4_implicit_finalize
    (Encoder.mk [1, 3, 2] (make_lgenerator [1, 3, 2]) [0, 0, 0] 252) 7
    (by decide) (by decide)
have h' := c4_implicit_finalize
    (Encoder.mk [1, 3, 2] (make_lgenerator [1, 3, 2]) [0, 0, 0] 251) 7
    (by decide) (by decide)
exact ⟨((h.2 (by decide)).2 (by decide)).1,
       ((h.2 (by decide)).2 (by decide)).2.2.1,
       (h'.2 (by decide)).1 (by decide)⟩

/-- C5: `finalize` returns the explicit error `none` if and only if the
scratch buffer is empty — distinguishable from a successful all-zero
remainder — and on success it returns exactly `ecc_len = generator.len -
1` remainder bytes, after which the byte counter is zeroed and the
scratch buffer cleared. -/
theorem c5_finalize_error_iff_empty (e : Encoder) :
    ((e.finalize).2 = none ↔ e.scratch_space = []) ∧
    (e.scratch_space = [] →
      ¬ (e.finalize).2 = some (List.replicate (e.generator.length - 1) 0)) ∧
    (e.scratch_space ≠ [] →
      ∃ out, (e.finalize).2 = some out ∧
        out.length = e.generator.length - 1 ∧
        (e.finalize).1.scratch_space = [] ∧
        (e.finalize).1.bytes_processed = 0) := by
refine ⟨finalize_none_iff e, ?_, ?_⟩
· intro hemp
  rw [(finalize_none_iff e).2 hemp]
  simp
· intro hne
  have hlen : ¬ e.scratch_space.length = 0 := by
    simpa [List.length_eq_zero] using hne
  obtain ⟨hfst, out, hsnd, hol⟩ := finalize_success e hlen
  exact ⟨out, hsnd, hol, by rw [hfst]; rfl, by rw [hfst]; rfl⟩

/-- Witness for C5: an empty encoder errors, a loaded one succeeds with
two ECC bytes and a cleared state. -/
theorem c5_witness :
    ((Encoder.mk [1, 3, 2] (make_lgenerator [1, 3, 2]) [] 0).finalize).2 = none ∧
    (∃ out, ((Encoder.mk [1, 3, 2] (make_lgenerator [1, 3, 2]) [4, 5, 6] 3).finalize).2
        = some out ∧
      out.length = 2 ∧
      ((Encoder.mk [1, 3, 2] (make_lgenerator [1, 3, 2]) [4, 5, 6] 3).finalize).1.scratch_space
        = [] ∧
      ((Encoder.mk [1, 3, 2] (make_lgenerator [1, 3, 2]) [4, 5, 6] 3).finalize).1.bytes_processed
        = 0) :=
⟨(c5_finalize_error_iff_empty
    (Encoder.mk [1, 3, 2] (make_lgenerator [1, 3, 2]) [] 0)).1.mpr rfl,
 (c5_finalize_error_iff_empty
    (Encoder.mk [1, 3, 2] (make_lgenerator [1, 3, 2]) [4, 5, 6] 3)).2.2 (by decide)⟩

/-- C6: `generator_poly ecc_len` is the iterated product, starting from
`[1]`, of the 2-term polynomials `[1, pow(2, i)]` for `i` in
`0..ecc_len`; the result has length `ecc_len + 1` with leading
coefficient 1, and the exported precomputed generator constants for ECC
lengths 2, 4, 8 and 16 equal the corresponding `generator_poly`
outputs. -/
theorem c6_generator_poly :
    (∀ n : Nat, generator_poly n
        = (List.range n).foldl (fun gen (i : Nat) => polyMul gen [1, gf.pow 2 (i : Int)]) [1]) ∧
    (∀ n : Nat, (generator_poly n).length = n + 1) ∧
    (∀ n : Nat, (generator_poly n).getD 0 0 = 1) ∧
    ENCODE_GEN_2_ECC_BYTES = generator_poly 2 ∧
    ENCODE_GEN_4_ECC_BYTES = generator_poly 4 ∧
    ENCODE_GEN_8_ECC_BYTES = generator_poly 8 ∧
    ENCODE_GEN_16_ECC_BYTES = generator_poly 16 :=
⟨fun _ => rfl, fun n => (gen_poly_inv n).1, fun n => (gen_poly_inv n).2,
 by decide, by decide, by decide, by decide⟩

/-- C9: `set_length new_len` zero-fills exactly the newly exposed range
`[old_len, new_len)` when growing past the previous length while the
container is dirty, marks the container dirty when shrinking, and leaves
all coefficients below the old length unchanged. -/
theorem c9_set_length (p : Polynom) (new_len : Nat) (hcap : new_len ≤ p.array.length) :
    ((p.set_length new_len).length = new_len) ∧
    (p.dirty = true → p.length < new_len →
      (∀ i, p.length ≤ i → i < new_len → (p.set_length new_len).array.getD i 0 = 0) ∧
      (∀ i, ¬ (p.length ≤ i ∧ i < new_len) →
        (p.set_length new_len).array.getD i 0 = p.array.getD i 0)) ∧
    (new_len < p.length → (p.set_length new_len).dirty = true) ∧
    (¬ (p.dirty = true ∧ p.length < new_len) → (p.set_length new_len).array = p.array) ∧
    (∀ i, i < p.length → (p.set_length new_len).array.getD i 0 = p.array.getD i 0) := by
unfold Polynom.set_length
dsimp only
by_cases hgrow : p.dirty = true ∧ p.length < new_len
· obtain ⟨hgd, hglt⟩ := hgrow
  rw [if_pos ⟨hgd, hglt⟩]
  refine ⟨rfl, fun _ _ => ⟨?_, ?_⟩, fun h => absurd h (by omega),
      fun hn => absurd ⟨hgd, hglt⟩ hn, ?_⟩
  · intro i h1 h2
    show (mapIdxFrom _ 0 p.array).getD i 0 = 0
    rw [List.getD_eq_getElem?_getD, getElem?_mapIdxFrom]
    have hi : i < p.array.length := by omega
    rw [List.getElem?_eq_getElem hi]
    simp only [Option.map_some', Option.getD_some]
    rw [if_pos ⟨by omega, by omega⟩]
  · intro i hni
    show (mapIdxFrom _ 0 p.array).getD i 0 = p.array.getD i 0
    rw [List.getD_eq_getElem?_getD, getElem?_mapIdxFrom,
        List.getD_eq_getElem?_getD]
    cases hv : p.array[i]? with
    | none => rfl
    | some v =>
      simp only [Option.map_some', Option.getD_some]
      rw [if_neg (by omega)]
  · intro i hi
    show (mapIdxFrom _ 0 p.array).getD i 0 = p.array.getD i 0
    rw [List.getD_eq_getElem?_getD, getElem?_mapIdxFrom,
        List.getD_eq_getElem?_getD]
    cases hv : p.array[i]? with
    | none => rfl
    | some v =>
      simp only [Option.map_some', Option.getD_some]
      rw [if_neg (by omega)]
· rw [if_neg hgrow]
  by_cases hsh : new_len < p.length
  · rw [if_pos hsh]
    exact ⟨rfl, fun hd hlt => absurd ⟨hd, hlt⟩ hgrow, fun _ => rfl,
           fun _ => rfl, fun i _ => rfl⟩
  · rw [if_neg hsh]
    exact ⟨rfl, fun hd hlt => absurd ⟨hd, hlt⟩ hgrow, fun h => absurd h hsh,
           fun _ => rfl, fun i _ => rfl⟩

/-- Witness for C9: a dirty container of capacity 8 shrunk to length 2
and regrown to 6 reads zeros in `[2, 6)` and keeps `[0, 2)`; a shrink
marks the container dirty. -/
theorem c9_witness :
    (6 : Nat) ≤ ([1, 1, 1, 1, 1, 1, 1, 1] : List Nat).length ∧
    ((Polynom.mk [1, 1, 1, 1, 1, 1, 1, 1] 2 true).set_length 6).array.getD 3 0 = 0 ∧
    ((Polynom.mk [1, 1, 1, 1, 1, 1, 1, 1] 2 true).set_length 6).array.getD 1 0 = 1 ∧
    ((Polynom.mk [1, 1, 1, 1, 1, 1, 1, 1] 8 false).set_length 2).dirty = true := by
have hgrow := c9_set_length (Polynom.mk [1, 1, 1, 1, 1, 1, 1, 1] 2 true) 6 (by decide)
have hshrink := c9_set_length (Polynom.mk [1, 1, 1, 1, 1, 1, 1, 1] 8 false) 2 (by decide)
refine ⟨by decide, (hgrow.2.1 rfl (by decide)).1 3 (by decide) (by decide), ?_,
    hshrink.2.2.1 (by decide)⟩
exact ((hgrow.2.1 rfl (by decide)).2 1 (by decide)).trans (by decide)

/-- C10: under the encoder's documented preconditions, every unchecked
access in `encode_single`, `finalize` and `run_encoding_round` stays in
bounds: the exponential-table index `LOG[pivot] + lgenerator[j]` is
always below 512, the scratch window is exactly generator-sized whenever
a round runs, the unchecked push happens strictly below capacity, the
implicit finalize always succeeds with room for the inserted
pass-through byte, and the well-formedness invariant is preserved by
`encode_single` and `finalize`. -/
theorem c10_unchecked_access_safe (e : Encoder) (hW : WF e)
    (hgnz : ∀ j, j < e.generator.length → e.generator.getD j 0 ≠ 0)
    (d : Nat) (hd : d < 256) :
    (∀ c j, gf.LOG.getD c 0 + e.lgenerator.getD j 0 < 512) ∧
    (e.generator.length ≤ e.scratch_space.length →
      e.scratch_space.length = e.generator.length) ∧
    (e.scratch_space.length < e.generator.length →
      e.scratch_space.length + 1 ≤ e.generator.length) ∧
    (e.scratch_space ≠ [] →
      ∃ out, (e.finalize).2 = some out ∧ out.length + 1 ≤ e.generator.length) ∧
    WF (e.encode_single d).1 ∧ WF (e.finalize).1 := by
refine ⟨?_, ?_, ?_, ?_, WF_encode_single e hW d hd, WF_finalize e hW⟩
· intro c j
  have h1 : gf.LOG.getD c 0 < 256 := log_getD_lt_256 c
  have h2 : e.lgenerator.getD j 0 < 256 := by
    rw [hW.2.1, make_lgenerator_getD]
    exact log_getD_lt_256 _
  omega
· intro h
  have := hW.1
  omega
· intro h
  omega
· intro hne
  obtain ⟨-, out, hsnd, hol⟩ := finalize_success e
      (by simpa [List.length_eq_zero] using hne)
  have := hW.2.2.2.2
  exact ⟨out, hsnd, by omega⟩

/-- Witness for C10 at a fresh encoder over the generator `[1, 3, 2]`. -/
theorem c10_witness :
    WF (new_with_precomputed_generator ENCODE_GEN_2_ECC_BYTES) ∧
    WF ((new_with_precomputed_generator ENCODE_GEN_2_ECC_BYTES).encode_single 9).1 := by
have hW : WF (new_with_precomputed_generator ENCODE_GEN_2_ECC_BYTES) :=
  ⟨by decide, by decide, by decide, by decide, by decide⟩
exact ⟨hW, (c10_unchecked_access_safe (new_with_precomputed_generator ENCODE_GEN_2_ECC_BYTES)
    hW (by decide) 9 (by decide)).2.2.2.2.1⟩

end RS
